import Mathlib

/-!
Shallow embedding of `mhwdata/io/datamap.py`: the `DataRow` record type, the
`DataMap` store with its reverse (language, name) index and id generator, and
the `NameSet` view.  Python `dict` / `collections.OrderedDict` are modelled as
association lists with Python's update semantics: assigning to an existing key
updates the value in place, assigning to a fresh key appends at the end.
-/

set_option autoImplicit false

namespace MHW

/-- Model of Python `d.get(k)`: value of the first pair whose key is `k`, if any. -/
def dictGet {α β : Type} [DecidableEq α] : List (α × β) → α → Option β
  | [], _ => none
  | (k', v) :: rest, k => if k' = k then some v else dictGet rest k

/-- Model of Python `d[k] = v`: update in place when `k` is present, append otherwise. -/
def dictSet {α β : Type} [DecidableEq α] (d : List (α × β)) (k : α) (v : β) :
    List (α × β) :=
  if d.any (fun p => p.1 = k) then
    d.map (fun p => if p.1 = k then (k, v) else p)
  else
    d ++ [(k, v)]

/-- Model of Python `del d[k]`: removes the pair(s) with key `k`. -/
def dictDel {α β : Type} [DecidableEq α] (d : List (α × β)) (k : α) :
    List (α × β) :=
  d.filter (fun p => p.1 ≠ k)

/-- Field values stored in a row: opaque payload strings or the multilingual
`name` mapping from language code to display string. -/
inductive Value where
  | vStr : String → Value
  | vNameMap : List (String × String) → Value
deriving DecidableEq, Repr

/-- A raw field dictionary, as passed to the store's insertion API. -/
abbrev Entry := List (String × Value)

/-- Error kinds surfaced by the store (Python raises `KeyError` with distinct
messages; `typeErr` stands for the `TypeError`/`AttributeError` a non-mapping
`name` value would raise). -/
inductive Err where
  | missingField
  | duplicateKey
  | keyNotFound
  | typeErr
deriving DecidableEq, Repr

/-- Embeds `DataRow`: a single row, an id plus the ordered field dictionary. -/
structure DataRow where
  id : Int
  data : Entry
deriving DecidableEq, Repr

namespace DataRow

/-- Embeds `DataRow.name`: `self['name'][lang_id]`. -/
def name (r : DataRow) (lang : String) : Except Err String :=
  match dictGet r.data "name" with
  | some (Value.vNameMap pairs) =>
      match dictGet pairs lang with
      | some n => Except.ok n
      | none => Except.error Err.keyNotFound
  | some _ => Except.error Err.typeErr
  | none => Except.error Err.keyNotFound

/-- Embeds `DataRow.names`: the (language, name) pairs of the row's `name` field
(empty when the field is absent or not a mapping; `namesChecked` is the
fallible version used on the insertion path). -/
def names (r : DataRow) : List (String × String) :=
  match dictGet r.data "name" with
  | some (Value.vNameMap pairs) => pairs
  | _ => []

/-- Embeds `DataRow.names()` as consumed by `_add_entry`: iterating the generator
fails when the `name` value is not a mapping. -/
def namesChecked (r : DataRow) : Except Err (List (String × String)) :=
  match dictGet r.data "name" with
  | some (Value.vNameMap pairs) => Except.ok pairs
  | some _ => Except.error Err.typeErr
  | none => Except.error Err.keyNotFound

/-- The keys collected by `set_value`'s scan: all field names strictly after
the first occurrence of `after` in iteration order. -/
def keysAfter : List String → String → List String
  | [], _ => []
  | k :: ks, anchor => if k = anchor then ks else keysAfter ks anchor

/-- One step of `set_value`'s move loop:
`value = self._data[k]; del self._data[k]; self._data[k] = value`. -/
def moveKey (d : Entry) (k : String) : Entry :=
  match dictGet d k with
  | some v => dictDel d k ++ [(k, v)]
  | none => d

/-- Embeds `DataRow.set_value(key, value, after=...)`. -/
def set_value (r : DataRow) (key : String) (value : Value) (after : String) :
    DataRow :=
  if after = "" then
    { r with data := dictSet r.data key value }
  else
    let keys_to_move := keysAfter (r.data.map Prod.fst) after
    let d1 := dictSet r.data key value
    { r with data := keys_to_move.foldl moveKey d1 }

end DataRow

/-- Embeds the `DataMap` state: the ordered entries, the reverse index, and the id
generator (`idGenNext` is the next value `itertools.count` would yield,
`lastId` is `self._last_id`). -/
structure DataMap where
  data : List (Int × DataRow)
  reverseEntries : List ((String × String) × Int)
  idGenNext : Int
  lastId : Int
deriving DecidableEq, Repr

namespace DataMap

/-- Embeds `DataMap.__init__` with no initial data: `count(1)` and `_last_id = 0`. -/
def new : DataMap := ⟨[], [], 1, 0⟩

/-- Embeds `DataMap.id_of`. -/
def id_of (m : DataMap) (language_code name : String) : Option Int :=
  dictGet m.reverseEntries (language_code, name)

/-- Embeds `DataMap.entry_of`. -/
def entry_of (m : DataMap) (language_code name : String) : Option DataRow :=
  match m.id_of language_code name with
  | some i => dictGet m.data i
  | none => none

/-- Embeds `DataMap._add_entry`.  Returns the post state together with the result;
the state is returned even on failure, mirroring that a Python exception
leaves prior mutations of `self` in place (here there are none). -/
def addEntryCore (m : DataMap) (entry_id : Int) (entry : Entry) :
    DataMap × Except Err DataRow :=
  if (dictGet entry "name").isNone then
    (m, Except.error Err.missingField)
  else if (dictGet m.data entry_id).isSome then
    (m, Except.error Err.duplicateKey)
  else
    let new_entry : DataRow := ⟨entry_id, entry⟩
    match new_entry.namesChecked with
    | Except.ok pairs =>
        let rev := pairs.foldl
          (fun acc p => dictSet acc (p.1, p.2) entry_id) m.reverseEntries
        ({ m with
            data := dictSet m.data entry_id new_entry,
            reverseEntries := rev },
         Except.ok new_entry)
    | Except.error e => (m, Except.error e)

/-- Embeds `DataMap.add_entry`: resets the generator when the id is above
`_last_id`, then delegates to `_add_entry` — even when the latter fails,
the generator mutation persists. -/
def add_entry (m : DataMap) (entry_id : Int) (entry : Entry) :
    DataMap × Except Err DataRow :=
  let m' :=
    if entry_id > m.lastId then
      { m with idGenNext := entry_id + 1, lastId := entry_id }
    else m
  addEntryCore m' entry_id entry

/-- Embeds `DataMap.insert`: draws `next(self._id_gen)` (which advances the counter
but, unlike `_generate_id`, does not touch `_last_id`) and delegates to
`_add_entry`. -/
def insert (m : DataMap) (entry : Entry) : DataMap × Except Err DataRow :=
  let entry_id := m.idGenNext
  let m' := { m with idGenNext := m.idGenNext + 1 }
  addEntryCore m' entry_id entry

/-- The identifiers yielded by `DataMap.__iter__`, in order. -/
def iterKeys (m : DataMap) : List Int :=
  m.data.map Prod.fst

/-- The rows of the store, in iteration order (`self._map.values()`). -/
def valuesList (m : DataMap) : List DataRow :=
  m.data.map Prod.snd

end DataMap

/-- The observable behaviour of iterating `NameSet`: the names yielded before
the iteration either finishes (`none`) or raises (`some e`). -/
def namesSeq : List DataRow → String → List String × Option Err
  | [], _ => ([], none)
  | r :: rs, lang =>
      match r.name lang with
      | Except.ok n =>
          let rest := namesSeq rs lang
          (n :: rest.1, rest.2)
      | Except.error e => ([], some e)

/-- Embeds `NameSet.__iter__` over `DataMap.names(language_code)`: yields
`row.name(language_code)` for each row in store order. -/
def nameSetIter (m : DataMap) (language_code : String) :
    List String × Option Err :=
  namesSeq m.valuesList language_code

/-- The two insertion operations of the store API. -/
inductive Op where
  | ins (entry : Entry)
  | addId (id : Int) (entry : Entry)

/-- Apply one operation to a store. -/
def applyOp (m : DataMap) : Op → DataMap × Except Err DataRow
  | Op.ins e => m.insert e
  | Op.addId i e => m.add_entry i e

/-- Run a sequence of operations, keeping the state across failures. -/
def runOps (m : DataMap) : List Op → DataMap
  | [] => m
  | op :: ops => runOps (applyOp m op).1 ops

/-- The ids of the rows successfully added by a sequence of operations,
in the order the additions happened. -/
def newIds (m : DataMap) : List Op → List Int
  | [] => []
  | op :: ops =>
      match applyOp m op with
      | (m', Except.ok r) => r.id :: newIds m' ops
      | (m', Except.error _) => newIds m' ops


deriving instance DecidableEq for Except

/-- A minimal raw entry carrying a single English name, used for concrete
test stores. -/
def entryEn (n : String) : Entry := [("name", Value.vNameMap [("en", n)])]

/-! ### Lemmas about the dictionary model -/

section DictLemmas

variable {α β : Type} [DecidableEq α]

theorem dictGet_cons (k' : α) (v : β) (d : List (α × β)) (k : α) :
    dictGet ((k', v) :: d) k = if k' = k then some v else dictGet d k := rfl

theorem dictGet_eq_none_iff (d : List (α × β)) (k : α) :
    dictGet d k = none ↔ ∀ p ∈ d, p.1 ≠ k := by
  induction d with
  | nil => simp [dictGet]
  | cons hd tl ih =>
    obtain ⟨k', v⟩ := hd
    by_cases h : k' = k
    · simp [dictGet_cons, h]
    · simp [dictGet_cons, h, ih]

theorem dictGet_append_none {d₁ : List (α × β)} {k : α} (h : dictGet d₁ k = none)
    (d₂ : List (α × β)) : dictGet (d₁ ++ d₂) k = dictGet d₂ k := by
  induction d₁ with
  | nil => simp
  | cons hd tl ih =>
    obtain ⟨k', v⟩ := hd
    by_cases hk : k' = k
    · simp [dictGet_cons, hk] at h
    · rw [List.cons_append, dictGet_cons, if_neg hk]
      rw [dictGet_cons, if_neg hk] at h
      exact ih h

theorem dictGet_append_some {d₁ : List (α × β)} {k : α} {v : β}
    (h : dictGet d₁ k = some v) (d₂ : List (α × β)) :
    dictGet (d₁ ++ d₂) k = some v := by
  induction d₁ with
  | nil => simp [dictGet] at h
  | cons hd tl ih =>
    obtain ⟨k', w⟩ := hd
    by_cases hk : k' = k
    · rw [dictGet_cons, if_pos hk] at h
      rw [List.cons_append, dictGet_cons, if_pos hk]
      exact h
    · rw [dictGet_cons, if_neg hk] at h
      rw [List.cons_append, dictGet_cons, if_neg hk]
      exact ih h

theorem dictGet_isSome_of_mem {d : List (α × β)} {k : α}
    (h : k ∈ d.map Prod.fst) : (dictGet d k).isSome := by
  rcases hg : dictGet d k with _ | v
  · rw [dictGet_eq_none_iff] at hg
    rcases List.mem_map.mp h with ⟨p, hp, hpk⟩
    exact absurd hpk (hg p hp)
  · rfl

theorem dictGet_eq_none_of_not_mem {d : List (α × β)} {k : α}
    (h : k ∉ d.map Prod.fst) : dictGet d k = none := by
  rw [dictGet_eq_none_iff]
  intro p hp hpk
  exact h (List.mem_map.mpr ⟨p, hp, hpk⟩)

theorem not_mem_keys_of_dictGet_none {d : List (α × β)} {k : α}
    (h : dictGet d k = none) : k ∉ d.map Prod.fst := by
  intro hmem
  have := dictGet_isSome_of_mem hmem
  rw [h] at this
  exact Bool.noConfusion this

theorem dictSet_of_not_mem {d : List (α × β)} {k : α}
    (h : k ∉ d.map Prod.fst) (v : β) : dictSet d k v = d ++ [(k, v)] := by
  have ha : d.any (fun p => p.1 = k) = false := by
    simp only [List.any_eq_false, decide_eq_true_eq]
    intro p hp hpk
    exact h (List.mem_map.mpr ⟨p, hp, hpk⟩)
  simp [dictSet, ha]

theorem dictSet_of_mem {d : List (α × β)} {k : α}
    (h : k ∈ d.map Prod.fst) (v : β) :
    dictSet d k v = d.map (fun p => if p.1 = k then (k, v) else p) := by
  have ha : d.any (fun p => p.1 = k) = true := by
    simp only [List.any_eq_true, decide_eq_true_eq]
    rcases List.mem_map.mp h with ⟨p, hp, hpk⟩
    exact ⟨p, hp, hpk⟩
  simp [dictSet, ha]

theorem keys_dictSet_of_mem {d : List (α × β)} {k : α}
    (h : k ∈ d.map Prod.fst) (v : β) :
    (dictSet d k v).map Prod.fst = d.map Prod.fst := by
  rw [dictSet_of_mem h, List.map_map]
  apply List.map_congr_left
  intro p _
  by_cases hpk : p.1 = k
  · simp [hpk]
  · simp [hpk]

theorem dictGet_setMap_ne (d : List (α × β)) {k k' : α} (h : k' ≠ k) (v : β) :
    dictGet (d.map (fun p => if p.1 = k then (k, v) else p)) k' = dictGet d k' := by
  induction d with
  | nil => rfl
  | cons hd tl ih =>
    obtain ⟨k₀, w⟩ := hd
    by_cases hk : k₀ = k
    · subst hk
      simp [dictGet_cons, h.symm, ih]
    · simp only [List.map_cons, if_neg hk]
      rw [dictGet_cons, dictGet_cons]
      by_cases hk' : k₀ = k'
      · simp [hk']
      · simp only [hk', if_false]
        exact ih

theorem dictGet_setMap_self {d : List (α × β)} {k : α}
    (h : k ∈ d.map Prod.fst) (v : β) :
    dictGet (d.map (fun p => if p.1 = k then (k, v) else p)) k = some v := by
  induction d with
  | nil => simp at h
  | cons hd tl ih =>
    obtain ⟨k₀, w⟩ := hd
    by_cases hk : k₀ = k
    · subst hk
      simp [dictGet_cons]
    · simp only [List.map_cons, if_neg hk]
      rw [dictGet_cons, if_neg hk]
      apply ih
      simp only [List.map_cons, List.mem_cons] at h
      rcases h with h | h
      · exact absurd h.symm hk
      · exact h

theorem dictGet_dictSet_self (d : List (α × β)) (k : α) (v : β) :
    dictGet (dictSet d k v) k = some v := by
  by_cases h : k ∈ d.map Prod.fst
  · rw [dictSet_of_mem h]
    exact dictGet_setMap_self h v
  · rw [dictSet_of_not_mem h, dictGet_append_none (dictGet_eq_none_of_not_mem h)]
    simp [dictGet_cons]

theorem dictGet_dictSet_ne (d : List (α × β)) {k k' : α} (h : k' ≠ k) (v : β) :
    dictGet (dictSet d k v) k' = dictGet d k' := by
  by_cases hm : k ∈ d.map Prod.fst
  · rw [dictSet_of_mem hm]
    exact dictGet_setMap_ne d h v
  · rw [dictSet_of_not_mem hm]
    rcases hg : dictGet d k' with _ | w
    · rw [dictGet_append_none hg, dictGet_cons, if_neg (fun hh => h hh.symm)]
      rfl
    · exact dictGet_append_some hg _

theorem dictGet_filter_ne (d : List (α × β)) {k k' : α} (h : k' ≠ k) :
    dictGet (d.filter (fun p => p.1 ≠ k)) k' = dictGet d k' := by
  induction d with
  | nil => rfl
  | cons hd tl ih =>
    obtain ⟨k₀, w⟩ := hd
    by_cases hk : k₀ = k
    · rw [List.filter_cons_of_neg (by simp [hk])]
      rw [dictGet_cons, if_neg (fun hh : k₀ = k' => h (hk ▸ hh).symm)]
      exact ih
    · rw [List.filter_cons_of_pos (by simp [hk])]
      rw [dictGet_cons, dictGet_cons]
      by_cases hk' : k₀ = k'
      · simp [hk']
      · simp only [hk', if_false]
        exact ih

theorem filterMap_keys_get (ds : List (α × β)) (g : α → Option β)
    (hg : ∀ k ∈ ds.map Prod.fst, g k = dictGet ds k)
    (hnd : (ds.map Prod.fst).Nodup) :
    (ds.map Prod.fst).filterMap (fun k => (g k).map (fun v => (k, v))) = ds := by
  induction ds with
  | nil => rfl
  | cons hd tl ih =>
    obtain ⟨k₀, v₀⟩ := hd
    simp only [List.map_cons] at hnd ⊢
    rcases List.nodup_cons.mp hnd with ⟨hk₀, hnd'⟩
    rw [List.filterMap_cons]
    have h₀ : g k₀ = some v₀ := by
      rw [hg k₀ (by simp), dictGet_cons, if_pos rfl]
    rw [h₀]
    show (k₀, v₀) :: _ = (k₀, v₀) :: tl
    congr 1
    apply ih
    · intro k hk
      have hne : k ≠ k₀ := fun hh => hk₀ (hh ▸ hk)
      rw [hg k (by simp [hk]), dictGet_cons, if_neg (fun hh => hne hh.symm)]
    · exact hnd'

end DictLemmas

/-! ### Lemmas about the field-reordering algorithm of `set_value` -/

theorem dictGet_moveKey_ne (d : Entry) {k k' : String} (h : k' ≠ k) :
    dictGet (DataRow.moveKey d k) k' = dictGet d k' := by
  unfold DataRow.moveKey
  rcases hg : dictGet d k with _ | v
  · rfl
  · rcases hg' : dictGet (dictDel d k) k' with _ | w
    · have h2 : dictGet d k' = none := by
        rw [← dictGet_filter_ne d h]
        exact hg'
      rw [dictGet_append_none hg', dictGet_cons, if_neg (fun hh => h hh.symm), h2]
      rfl
    · rw [dictGet_append_some hg']
      rw [dictDel, dictGet_filter_ne d h] at hg'
      exact hg'.symm

theorem foldl_moveKey_eq (L : List String) (hL : L.Nodup) (d : Entry) :
    L.foldl DataRow.moveKey d =
      d.filter (fun p => p.1 ∉ L) ++
        L.filterMap (fun k => (dictGet d k).map (fun v => (k, v))) := by
  induction L generalizing d with
  | nil => simp
  | cons k L' ih =>
    rcases List.nodup_cons.mp hL with ⟨hkL, hL'⟩
    rw [List.foldl_cons, ih hL']
    have hmapeq : L'.filterMap
        (fun k' => (dictGet (DataRow.moveKey d k) k').map (fun v => (k', v)))
        = L'.filterMap (fun k' => (dictGet d k').map (fun v => (k', v))) := by
      apply List.filterMap_congr
      intro k' hk'
      rw [dictGet_moveKey_ne d (ne_of_mem_of_not_mem hk' hkL)]
    rw [hmapeq]
    rcases hg : dictGet d k with _ | v
    · unfold DataRow.moveKey
      rw [hg]
      have hfil : d.filter (fun p => p.1 ∉ L') = d.filter (fun p => p.1 ∉ k :: L') := by
        apply List.filter_congr
        intro p hp
        have : p.1 ≠ k := (dictGet_eq_none_iff d k).mp hg p hp
        simp [List.mem_cons, this]
      rw [hfil, List.filterMap_cons, hg]
      simp
    · have hfil : d.filter (fun p => decide (p.1 ∉ L') && decide (p.1 ≠ k))
          = d.filter (fun p => p.1 ∉ k :: L') := by
        apply List.filter_congr
        intro p hp
        by_cases h1 : p.1 = k
        · simp [h1, List.mem_cons]
        · by_cases h2 : p.1 ∈ L' <;> simp [h1, h2, List.mem_cons]
      have hsingle : ([(k, v)] : Entry).filter (fun p => p.1 ∉ L') = [(k, v)] := by
        rw [List.filter_cons_of_pos (by simp [hkL])]
        rfl
      unfold DataRow.moveKey
      rw [hg, List.filter_append, dictDel, List.filter_filter, hfil, hsingle,
        List.filterMap_cons, hg]
      simp

theorem keys_shuffle (dp ds tl : Entry) (after : String) (av : Value)
    (hn : ((dp ++ (after, av) :: (ds ++ tl)).map Prod.fst).Nodup) :
    (ds.map Prod.fst).foldl DataRow.moveKey (dp ++ (after, av) :: (ds ++ tl)) =
      dp ++ (after, av) :: (tl ++ ds) := by
  have hkeys : (dp ++ (after, av) :: (ds ++ tl)).map Prod.fst
      = dp.map Prod.fst ++ after :: (ds.map Prod.fst ++ tl.map Prod.fst) := by
    simp
  rw [hkeys] at hn
  rcases List.nodup_append.mp hn with ⟨hdp, hrest, hdisj⟩
  rcases List.nodup_cons.mp hrest with ⟨hafter, hrest'⟩
  rcases List.nodup_append.mp hrest' with ⟨hds, htl, hdisj2⟩
  have hafter_ds : after ∉ ds.map Prod.fst := fun hh =>
    hafter (List.mem_append.mpr (Or.inl hh))
  have hdp_ds : ∀ p ∈ dp, p.1 ∉ ds.map Prod.fst := by
    intro p hp hmem
    exact hdisj (List.mem_map_of_mem Prod.fst hp)
      (List.mem_cons.mpr (Or.inr (List.mem_append.mpr (Or.inl hmem))))
  have htl_ds : ∀ p ∈ tl, p.1 ∉ ds.map Prod.fst := by
    intro p hp hmem
    exact hdisj2 hmem (List.mem_map_of_mem Prod.fst hp)
  rw [foldl_moveKey_eq _ hds]
  have hget : ∀ k ∈ ds.map Prod.fst,
      dictGet (dp ++ (after, av) :: (ds ++ tl)) k = dictGet ds k := by
    intro k hk
    have h1 : dictGet dp k = none := by
      apply dictGet_eq_none_of_not_mem
      intro hmem
      exact hdisj hmem (List.mem_cons.mpr (Or.inr (List.mem_append.mpr (Or.inl hk))))
    have hka : after ≠ k := fun hh => hafter_ds (hh ▸ hk)
    rw [dictGet_append_none h1, dictGet_cons, if_neg hka]
    rcases Option.isSome_iff_exists.mp (dictGet_isSome_of_mem hk) with ⟨v, hv⟩
    rw [dictGet_append_some hv]
    exact hv.symm
  have hmapds : (ds.map Prod.fst).filterMap
      (fun k => (dictGet (dp ++ (after, av) :: (ds ++ tl)) k).map (fun v => (k, v)))
      = ds := by
    apply filterMap_keys_get _ _ hget hds
  rw [hmapds]
  have hfa : (dp ++ (after, av) :: (ds ++ tl)).filter
      (fun p => p.1 ∉ ds.map Prod.fst)
      = dp ++ (after, av) :: tl := by
    rw [List.filter_append, List.filter_cons_of_pos (by simpa using hafter_ds),
      List.filter_append]
    have h1 : dp.filter (fun p => p.1 ∉ ds.map Prod.fst) = dp :=
      List.filter_eq_self.mpr (fun p hp => by simpa using hdp_ds p hp)
    have h2 : ds.filter (fun p => p.1 ∉ ds.map Prod.fst) = [] := by
      apply List.filter_eq_nil_iff.mpr
      intro p hp
      simpa using List.mem_map_of_mem Prod.fst hp
    have h3 : tl.filter (fun p => p.1 ∉ ds.map Prod.fst) = tl :=
      List.filter_eq_self.mpr (fun p hp => by simpa using htl_ds p hp)
    rw [h1, h2, h3, List.nil_append]
  rw [hfa, List.append_assoc, List.cons_append]

theorem keysAfter_of_not_mem {ks : List String} {anchor : String}
    (h : anchor ∉ ks) : DataRow.keysAfter ks anchor = [] := by
  induction ks with
  | nil => rfl
  | cons k ks ih =>
    rw [DataRow.keysAfter]
    rw [List.mem_cons, not_or] at h
    rw [if_neg (fun hh => h.1 hh.symm)]
    exact ih h.2

theorem keysAfter_append_cons {ks₁ : List String} {anchor : String}
    (h : anchor ∉ ks₁) (ks₂ : List String) :
    DataRow.keysAfter (ks₁ ++ anchor :: ks₂) anchor = ks₂ := by
  induction ks₁ with
  | nil => simp [DataRow.keysAfter]
  | cons k ks ih =>
    rw [List.mem_cons, not_or] at h
    rw [List.cons_append, DataRow.keysAfter, if_neg (fun hh => h.1 hh.symm)]
    exact ih h.2


theorem keys_setMap {α β : Type} [DecidableEq α] (d : List (α × β)) (k : α) (v : β) :
    (d.map (fun p => if p.1 = k then (k, v) else p)).map Prod.fst = d.map Prod.fst := by
  rw [List.map_map]
  apply List.map_congr_left
  intro p _
  by_cases hpk : p.1 = k
  · simp [hpk]
  · simp [hpk]

theorem exists_split_of_mem_keys {α β : Type} [DecidableEq α]
    {d : List (α × β)} {k : α} (h : k ∈ d.map Prod.fst) :
    ∃ dp v ds, d = dp ++ (k, v) :: ds := by
  rcases List.mem_map.mp h with ⟨p, hp, hpk⟩
  rcases List.append_of_mem hp with ⟨dp, ds, hsplit⟩
  refine ⟨dp, p.2, ds, ?_⟩
  rw [hsplit]
  congr 1
  rw [← hpk]

theorem set_value_plain (r : DataRow) (key : String) (value : Value) :
    r.set_value key value "" = { r with data := dictSet r.data key value } := by
  rw [DataRow.set_value, if_pos rfl]

theorem set_value_absent_anchor (r : DataRow) (key : String) (value : Value)
    {after : String} (h : after ∉ r.data.map Prod.fst) :
    r.set_value key value after = { r with data := dictSet r.data key value } := by
  by_cases he : after = ""
  · rw [he, set_value_plain]
  · rw [DataRow.set_value, if_neg he]
    rw [keysAfter_of_not_mem h]
    rfl

theorem set_value_after_ne (r : DataRow) (key : String) (value : Value)
    {after : String} (hne : after ≠ "") :
    r.set_value key value after =
      ⟨r.id, (DataRow.keysAfter (r.data.map Prod.fst) after).foldl
        DataRow.moveKey (dictSet r.data key value)⟩ := by
  rw [DataRow.set_value, if_neg hne]

theorem set_value_new_key (i : Int) (dp ds : Entry) (after key : String)
    (av value : Value)
    (hne : after ≠ "")
    (hnd : ((dp ++ (after, av) :: ds).map Prod.fst).Nodup)
    (hkey : key ∉ (dp ++ (after, av) :: ds).map Prod.fst) :
    (DataRow.set_value ⟨i, dp ++ (after, av) :: ds⟩ key value after).data
      = dp ++ (after, av) :: (key, value) :: ds := by
  rw [set_value_after_ne _ _ _ hne]
  have hafter_dp : after ∉ dp.map Prod.fst := by
    intro hmem
    have hk2 : (dp ++ (after, av) :: ds).map Prod.fst
        = dp.map Prod.fst ++ after :: ds.map Prod.fst := by simp
    rw [hk2] at hnd
    rcases List.nodup_append.mp hnd with ⟨_, _, hdisj⟩
    exact hdisj hmem (List.mem_cons.mpr (Or.inl rfl))
  have hkm : DataRow.keysAfter
      (((⟨i, dp ++ (after, av) :: ds⟩ : DataRow).data).map Prod.fst) after
      = ds.map Prod.fst := by
    show DataRow.keysAfter ((dp ++ (after, av) :: ds).map Prod.fst) after
      = ds.map Prod.fst
    have hk2 : (dp ++ (after, av) :: ds).map Prod.fst
        = dp.map Prod.fst ++ after :: ds.map Prod.fst := by simp
    rw [hk2, keysAfter_append_cons hafter_dp]
  have hd1 : dictSet ((⟨i, dp ++ (after, av) :: ds⟩ : DataRow).data) key value
      = dp ++ (after, av) :: (ds ++ [(key, value)]) := by
    show dictSet (dp ++ (after, av) :: ds) key value
      = dp ++ (after, av) :: (ds ++ [(key, value)])
    rw [dictSet_of_not_mem hkey]
    simp
  rw [hkm, hd1]
  have hn' : ((dp ++ (after, av) :: (ds ++ [(key, value)])).map Prod.fst).Nodup := by
    have hk3 : (dp ++ (after, av) :: (ds ++ [(key, value)])).map Prod.fst
        = (dp ++ (after, av) :: ds).map Prod.fst ++ [key] := by simp
    rw [hk3]
    apply List.nodup_append.mpr
    refine ⟨hnd, List.nodup_singleton key, ?_⟩
    intro a ha hamem
    rw [List.mem_singleton] at hamem
    exact hkey (hamem ▸ ha)
  rw [keys_shuffle dp ds [(key, value)] after av hn']
  simp

theorem set_value_existing_key (i : Int) (d : Entry) (after key : String)
    (value : Value)
    (hne : after ≠ "")
    (hnd : (d.map Prod.fst).Nodup)
    (hmem : after ∈ d.map Prod.fst)
    (hkey : key ∈ d.map Prod.fst) :
    DataRow.set_value ⟨i, d⟩ key value after = ⟨i, dictSet d key value⟩ := by
  rcases exists_split_of_mem_keys hmem with ⟨dp, av, ds, hsplit⟩
  subst hsplit
  rw [set_value_after_ne _ _ _ hne]
  have hafter_dp : after ∉ dp.map Prod.fst := by
    intro hmem'
    have hk2 : (dp ++ (after, av) :: ds).map Prod.fst
        = dp.map Prod.fst ++ after :: ds.map Prod.fst := by simp
    rw [hk2] at hnd
    rcases List.nodup_append.mp hnd with ⟨_, _, hdisj⟩
    exact hdisj hmem' (List.mem_cons.mpr (Or.inl rfl))
  have hkm : DataRow.keysAfter
      (((⟨i, dp ++ (after, av) :: ds⟩ : DataRow).data).map Prod.fst) after
      = ds.map Prod.fst := by
    show DataRow.keysAfter ((dp ++ (after, av) :: ds).map Prod.fst) after
      = ds.map Prod.fst
    have hk2 : (dp ++ (after, av) :: ds).map Prod.fst
        = dp.map Prod.fst ++ after :: ds.map Prod.fst := by simp
    rw [hk2, keysAfter_append_cons hafter_dp]
  have hset : dictSet ((⟨i, dp ++ (after, av) :: ds⟩ : DataRow).data) key value
      = (dp.map (fun p => if p.1 = key then (key, value) else p))
        ++ (after, if after = key then value else av)
          :: ((ds.map (fun p => if p.1 = key then (key, value) else p)) ++ []) := by
    show dictSet (dp ++ (after, av) :: ds) key value = _
    rw [dictSet_of_mem hkey]
    simp only [List.map_append, List.map_cons, List.append_nil]
    congr 1
    congr 1
    by_cases hak : after = key
    · subst hak
      simp
    · simp [hak]
  have hkeq : ds.map Prod.fst
      = (ds.map (fun p => if p.1 = key then (key, value) else p)).map Prod.fst := by
    rw [keys_setMap]
  rw [hkm, hset, hkeq]
  have hn' : (((dp.map (fun p => if p.1 = key then (key, value) else p))
      ++ (after, if after = key then value else av)
        :: ((ds.map (fun p => if p.1 = key then (key, value) else p)) ++ [])).map
        Prod.fst).Nodup := by
    have hk3 : ((dp.map (fun p => if p.1 = key then (key, value) else p))
        ++ (after, if after = key then value else av)
          :: ((ds.map (fun p => if p.1 = key then (key, value) else p)) ++ [])).map
          Prod.fst
        = (dp ++ (after, av) :: ds).map Prod.fst := by
      simp only [List.map_append, List.map_cons, List.append_nil, keys_setMap]
    rw [hk3]
    exact hnd
  rw [keys_shuffle _ _ [] after _ hn']
  have hback : (dp.map (fun p => if p.1 = key then (key, value) else p))
      ++ (after, if after = key then value else av)
        :: ([] ++ (ds.map (fun p => if p.1 = key then (key, value) else p)))
      = dictSet (dp ++ (after, av) :: ds) key value := by
    rw [dictSet_of_mem hkey]
    simp only [List.map_append, List.map_cons, List.nil_append]
    congr 1
    congr 1
    by_cases hak : after = key
    · subst hak
      simp
    · simp [hak]
  rw [hback]
  exact congrArg (DataRow.mk i) hset


/-! ### Lemmas about the insertion path -/

theorem namesChecked_ok {r : DataRow} {pairs : List (String × String)}
    (h : r.namesChecked = Except.ok pairs) :
    dictGet r.data "name" = some (Value.vNameMap pairs) ∧ r.names = pairs := by
  unfold DataRow.namesChecked at h
  unfold DataRow.names
  rcases hg : dictGet r.data "name" with _ | v
  · rw [hg] at h
    exact absurd h (by simp)
  · rcases v with str | m
    · rw [hg] at h
      exact absurd h (by simp)
    · rw [hg] at h
      rw [Except.ok.injEq] at h
      exact ⟨by rw [h], h⟩

theorem dictGet_foldl_revSet (pairs : List (String × String)) (idv : Int)
    (acc : List ((String × String) × Int)) (key : String × String) :
    dictGet (pairs.foldl (fun a p => dictSet a (p.1, p.2) idv) acc) key =
      if key ∈ pairs then some idv else dictGet acc key := by
  induction pairs generalizing acc with
  | nil => simp
  | cons p ps ih =>
    rw [List.foldl_cons, ih]
    by_cases hmem : key ∈ ps
    · simp [hmem, List.mem_cons]
    · simp only [hmem, if_false]
      by_cases hkp : key = p
      · subst hkp
        simp [dictGet_dictSet_self]
      · have : dictGet (dictSet acc (p.1, p.2) idv) key = dictGet acc key := by
          exact dictGet_dictSet_ne acc hkp idv
        rw [this]
        simp [List.mem_cons, hmem, hkp]

theorem addEntryCore_gen (m : DataMap) (entry_id : Int) (e : Entry) :
    (m.addEntryCore entry_id e).1.idGenNext = m.idGenNext ∧
    (m.addEntryCore entry_id e).1.lastId = m.lastId := by
  simp only [DataMap.addEntryCore]
  by_cases h1 : (dictGet e "name").isNone
  · rw [if_pos h1]
    exact ⟨rfl, rfl⟩
  · rw [if_neg h1]
    by_cases h2 : (dictGet m.data entry_id).isSome
    · rw [if_pos h2]
      exact ⟨rfl, rfl⟩
    · rw [if_neg h2]
      cases hnc : (⟨entry_id, e⟩ : DataRow).namesChecked with
      | ok pairs => simp [hnc]
      | error er => simp [hnc]

theorem addEntryCore_fst_of_error {m : DataMap} {entry_id : Int} {e : Entry}
    {er : Err} (h : (m.addEntryCore entry_id e).2 = Except.error er) :
    (m.addEntryCore entry_id e).1 = m := by
  revert h
  simp only [DataMap.addEntryCore]
  by_cases h1 : (dictGet e "name").isNone
  · rw [if_pos h1]
    intro _
    rfl
  · rw [if_neg h1]
    by_cases h2 : (dictGet m.data entry_id).isSome
    · rw [if_pos h2]
      intro _
      rfl
    · rw [if_neg h2]
      cases hnc : (⟨entry_id, e⟩ : DataRow).namesChecked with
      | ok pairs => simp [hnc]
      | error er2 => simp [hnc]

theorem addEntryCore_ok {m m₂ : DataMap} {entry_id : Int} {e : Entry}
    {r : DataRow} (h : m.addEntryCore entry_id e = (m₂, Except.ok r)) :
    r = ⟨entry_id, e⟩ ∧ dictGet m.data entry_id = none ∧
    dictGet e "name" = some (Value.vNameMap r.names) ∧
    m₂.data = m.data ++ [(entry_id, r)] ∧
    m₂.reverseEntries = r.names.foldl
      (fun acc p => dictSet acc (p.1, p.2) entry_id) m.reverseEntries ∧
    m₂.idGenNext = m.idGenNext ∧ m₂.lastId = m.lastId := by
  revert h
  simp only [DataMap.addEntryCore]
  by_cases h1 : (dictGet e "name").isNone
  · rw [if_pos h1]
    intro h
    simp at h
  · rw [if_neg h1]
    by_cases h2 : (dictGet m.data entry_id).isSome
    · rw [if_pos h2]
      intro h
      simp at h
    · rw [if_neg h2]
      cases hnc : (⟨entry_id, e⟩ : DataRow).namesChecked with
      | error er2 => intro h; simp [hnc] at h
      | ok pairs =>
        intro h
        simp only [hnc] at h
        rw [Prod.mk.injEq, Except.ok.injEq] at h
        rcases h with ⟨hm2, hr⟩
        rcases namesChecked_ok hnc with ⟨hname, hnames⟩
        have hr' : r = ⟨entry_id, e⟩ := hr.symm
        subst hr'
        have hnone : dictGet m.data entry_id = none := by
          rcases hg : dictGet m.data entry_id with _ | v
          · rfl
          · rw [hg] at h2
            exact absurd rfl h2
        refine ⟨rfl, hnone, ?_, ?_, ?_, ?_, ?_⟩
        · rw [hname, hnames]
        · rw [← hm2]
          show dictSet m.data entry_id _ = _
          rw [dictSet_of_not_mem (not_mem_keys_of_dictGet_none hnone)]
        · rw [← hm2]
          show pairs.foldl _ m.reverseEntries = _
          rw [hnames]
        · rw [← hm2]
        · rw [← hm2]


theorem addEntryCore_congr (m₁ m₂ : DataMap) (entry_id : Int) (e : Entry)
    (hd : m₁.data = m₂.data) (hr : m₁.reverseEntries = m₂.reverseEntries) :
    (m₁.addEntryCore entry_id e).2 = (m₂.addEntryCore entry_id e).2 ∧
    (m₁.addEntryCore entry_id e).1.data = (m₂.addEntryCore entry_id e).1.data ∧
    (m₁.addEntryCore entry_id e).1.reverseEntries
      = (m₂.addEntryCore entry_id e).1.reverseEntries := by
  obtain ⟨d₁, r₁, g₁, l₁⟩ := m₁
  obtain ⟨d₂, r₂, g₂, l₂⟩ := m₂
  simp only at hd hr
  subst hd
  subst hr
  simp only [DataMap.addEntryCore]
  by_cases h1 : (dictGet e "name").isNone
  · rw [if_pos h1, if_pos h1]
    exact ⟨rfl, rfl, rfl⟩
  · rw [if_neg h1, if_neg h1]
    by_cases h2 : (dictGet (DataMap.mk d₁ r₁ g₁ l₁).data entry_id).isSome
    · rw [if_pos h2, if_pos h2]
      exact ⟨rfl, rfl, rfl⟩
    · rw [if_neg h2, if_neg h2]
      cases hnc : (⟨entry_id, e⟩ : DataRow).namesChecked with
      | ok pairs => simp [hnc]
      | error er => simp [hnc]

theorem addEntryCore_missing {m : DataMap} {entry_id : Int} {e : Entry}
    (h : dictGet e "name" = none) :
    m.addEntryCore entry_id e = (m, Except.error Err.missingField) := by
  simp only [DataMap.addEntryCore]
  rw [if_pos (by rw [h]; rfl)]

theorem addEntryCore_dup {m : DataMap} {entry_id : Int} {e : Entry}
    (h1 : (dictGet e "name").isSome) (h2 : (dictGet m.data entry_id).isSome) :
    m.addEntryCore entry_id e = (m, Except.error Err.duplicateKey) := by
  simp only [DataMap.addEntryCore]
  rcases Option.isSome_iff_exists.mp h1 with ⟨v, hv⟩
  rw [if_neg (by rw [hv]; simp), if_pos h2]

theorem addEntryCore_iterKeys (m : DataMap) (entry_id : Int) (e : Entry) :
    (m.addEntryCore entry_id e).1.data.map Prod.fst =
      m.data.map Prod.fst ++
        (match (m.addEntryCore entry_id e).2 with
          | Except.ok r => [r.id]
          | Except.error _ => []) := by
  rcases hres : m.addEntryCore entry_id e with ⟨m₂, res⟩
  rcases res with er | r
  · have h1 : (m.addEntryCore entry_id e).1 = m :=
      addEntryCore_fst_of_error (by rw [hres])
    rw [hres] at h1
    simp only at h1
    rw [h1]
    simp
  · rcases addEntryCore_ok hres with ⟨hrid, _, _, hdata, _, _, _⟩
    simp only
    rw [hdata]
    simp [hrid]

theorem applyOp_iterKeys (m : DataMap) (op : Op) :
    (applyOp m op).1.iterKeys =
      m.iterKeys ++
        (match (applyOp m op).2 with
          | Except.ok r => [r.id]
          | Except.error _ => []) := by
  cases op with
  | ins e =>
    simp only [applyOp, DataMap.insert, DataMap.iterKeys]
    exact addEntryCore_iterKeys _ _ _
  | addId i e =>
    simp only [applyOp, DataMap.add_entry, DataMap.iterKeys]
    have hdata : (if i > m.lastId
        then { m with idGenNext := i + 1, lastId := i } else m).data = m.data := by
      split <;> rfl
    rw [addEntryCore_iterKeys, hdata]


theorem addEntryCore_success {m : DataMap} {entry_id : Int} {e : Entry}
    {pairs : List (String × String)}
    (hname : dictGet e "name" = some (Value.vNameMap pairs))
    (hfresh : dictGet m.data entry_id = none) :
    m.addEntryCore entry_id e =
      ({ m with
          data := m.data ++ [(entry_id, ⟨entry_id, e⟩)],
          reverseEntries := pairs.foldl
            (fun acc p => dictSet acc (p.1, p.2) entry_id) m.reverseEntries },
        Except.ok ⟨entry_id, e⟩) := by
  simp only [DataMap.addEntryCore]
  rw [if_neg (by rw [hname]; simp), if_neg (by rw [hfresh]; simp)]
  have hnc : (⟨entry_id, e⟩ : DataRow).namesChecked = Except.ok pairs := by
    unfold DataRow.namesChecked
    show (match dictGet e "name" with
      | some (Value.vNameMap pairs) => Except.ok pairs
      | some _ => Except.error Err.typeErr
      | none => Except.error Err.keyNotFound) = Except.ok pairs
    rw [hname]
  rw [hnc, dictSet_of_not_mem (not_mem_keys_of_dictGet_none hfresh)]

theorem namesSeq_all_ok {rows : List DataRow} {lang : String}
    (h : ∀ r ∈ rows, (r.name lang).isOk) :
    namesSeq rows lang
      = (rows.filterMap (fun r => (r.name lang).toOption), none) := by
  induction rows with
  | nil => simp [namesSeq]
  | cons r rs ih =>
    have hr := h r (List.mem_cons.mpr (Or.inl rfl))
    rcases hn : r.name lang with er | n
    · rw [hn] at hr
      exact absurd hr (by simp [Except.isOk, Except.toBool])
    · simp only [namesSeq, hn]
      rw [ih (fun r' hr' => h r' (List.mem_cons.mpr (Or.inr hr')))]
      simp [List.filterMap_cons, hn, Except.toOption]

theorem namesSeq_err {pre post : List DataRow} {r : DataRow} {lang : String}
    {e : Err} (hpre : ∀ r' ∈ pre, (r'.name lang).isOk)
    (hr : r.name lang = Except.error e) :
    namesSeq (pre ++ r :: post) lang
      = (pre.filterMap (fun r' => (r'.name lang).toOption), some e) := by
  induction pre with
  | nil =>
    simp only [List.nil_append, namesSeq]
    rw [hr]
    simp
  | cons r₀ pre' ih =>
    have h₀ := hpre r₀ (List.mem_cons.mpr (Or.inl rfl))
    rcases hn : r₀.name lang with er | n
    · rw [hn] at h₀
      exact absurd h₀ (by simp [Except.isOk, Except.toBool])
    · simp only [List.cons_append, namesSeq, hn, List.append_eq]
      rw [ih (fun r' hr' => hpre r' (List.mem_cons.mpr (Or.inr hr')))]
      simp [List.filterMap_cons, hn, Except.toOption]

theorem reverse_index_core {m m₂ : DataMap} {entry_id : Int} {e : Entry}
    {r : DataRow} (h : m.addEntryCore entry_id e = (m₂, Except.ok r)) :
    ∀ p ∈ r.names, m₂.id_of p.1 p.2 = some r.id ∧ m₂.entry_of p.1 p.2 = some r := by
  rcases addEntryCore_ok h with ⟨hr, hnone, _, hdata, hrev, _, _⟩
  intro p hp
  have hid : m₂.id_of p.1 p.2 = some entry_id := by
    unfold DataMap.id_of
    rw [hrev, dictGet_foldl_revSet, if_pos hp]
  have hrid : r.id = entry_id := by rw [hr]
  refine ⟨by rw [hid, hrid], ?_⟩
  unfold DataMap.entry_of
  rw [hid]
  show dictGet m₂.data entry_id = some r
  rw [hdata, dictGet_append_none hnone, dictGet_cons, if_pos rfl]


theorem add_entry_success {m : DataMap} {entry_id : Int} {e : Entry}
    {pairs : List (String × String)}
    (hname : dictGet e "name" = some (Value.vNameMap pairs))
    (hfresh : dictGet m.data entry_id = none) :
    ∃ m₂, m.add_entry entry_id e = (m₂, Except.ok ⟨entry_id, e⟩) ∧
      m₂.data = m.data ++ [(entry_id, ⟨entry_id, e⟩)] ∧
      m₂.reverseEntries = pairs.foldl
        (fun acc p => dictSet acc (p.1, p.2) entry_id) m.reverseEntries := by
  simp only [DataMap.add_entry]
  have hd : (if entry_id > m.lastId
      then { m with idGenNext := entry_id + 1, lastId := entry_id } else m).data
      = m.data := by split <;> rfl
  have hr : (if entry_id > m.lastId
      then { m with idGenNext := entry_id + 1, lastId := entry_id }
      else m).reverseEntries = m.reverseEntries := by split <;> rfl
  have hfresh' : dictGet (if entry_id > m.lastId
      then { m with idGenNext := entry_id + 1, lastId := entry_id } else m).data
      entry_id = none := by
    rw [hd]
    exact hfresh
  rw [addEntryCore_success hname hfresh']
  exact ⟨_, rfl, by rw [hd], by rw [hr]⟩

/-! ### Claim theorems -/

/-- C1: the claimed generator invariant fails in the code.  After two
auto-inserts (ids 1 and 2) and a failing `add_entry 1` (which resets the
counter to 2 because `insert` never updates `_last_id`), the next candidate
is 2 even though id 2 is already assigned, so the following `insert`
auto-generates a colliding id and fails with DuplicateKey — refuting
"every subsequently auto-generated identifier is strictly greater than every
identifier assigned so far". -/
theorem C1_generator_collision :
    ((((DataMap.new.insert (entryEn "A")).1.insert (entryEn "B")).1.add_entry 1
        (entryEn "C")).2 = Except.error Err.duplicateKey) ∧
    ((((DataMap.new.insert (entryEn "A")).1.insert (entryEn "B")).1.add_entry 1
        (entryEn "C")).1.idGenNext = 2) ∧
    ((2 : Int) ∈ (((DataMap.new.insert (entryEn "A")).1.insert
        (entryEn "B")).1.add_entry 1 (entryEn "C")).1.iterKeys) ∧
    (((((DataMap.new.insert (entryEn "A")).1.insert (entryEn "B")).1.add_entry 1
        (entryEn "C")).1.insert (entryEn "D")).2
      = Except.error Err.duplicateKey) := by
  decide

/-- C2 counterexample: a duplicate-id `add_entry` on a store whose entries were
auto-inserted fails with DuplicateKey but does NOT leave the store unchanged —
the generator state (`idGenNext`, `lastId`) is mutated before the failure. -/
theorem C2_counterexample :
    ((((DataMap.new.insert (entryEn "A")).1.insert (entryEn "B")).1.add_entry 1
        (entryEn "C")).2 = Except.error Err.duplicateKey) ∧
    ¬ ((((DataMap.new.insert (entryEn "A")).1.insert (entryEn "B")).1.add_entry 1
        (entryEn "C")).1
      = ((DataMap.new.insert (entryEn "A")).1.insert (entryEn "B")).1) := by
  decide

/-- C2 (amended): `add_with_id` on a duplicate id (with a `name` field present)
fails with DuplicateKey and leaves `entries` and `reverse_index` unchanged, but
the generator state is updated first: when the id exceeds `lastId`,
`idGenNext` becomes id+1 and `lastId` becomes id even though the call fails. -/
theorem C2_duplicate_add_entry {m : DataMap} {entry_id : Int} {e : Entry}
    (hname : (dictGet e "name").isSome)
    (hdup : (dictGet m.data entry_id).isSome) :
    (m.add_entry entry_id e).2 = Except.error Err.duplicateKey ∧
    (m.add_entry entry_id e).1.data = m.data ∧
    (m.add_entry entry_id e).1.reverseEntries = m.reverseEntries ∧
    (m.add_entry entry_id e).1.idGenNext =
      (if entry_id > m.lastId then entry_id + 1 else m.idGenNext) ∧
    (m.add_entry entry_id e).1.lastId =
      (if entry_id > m.lastId then entry_id else m.lastId) := by
  simp only [DataMap.add_entry]
  have hd : (if entry_id > m.lastId
      then { m with idGenNext := entry_id + 1, lastId := entry_id } else m).data
      = m.data := by split <;> rfl
  have hdup' : (dictGet (if entry_id > m.lastId
      then { m with idGenNext := entry_id + 1, lastId := entry_id } else m).data
      entry_id).isSome := by
    rw [hd]
    exact hdup
  rw [addEntryCore_dup hname hdup']
  refine ⟨rfl, hd, ?_, ?_, ?_⟩
  · split <;> rfl
  · by_cases hc : entry_id > m.lastId
    · rw [if_pos hc, if_pos hc]
    · rw [if_neg hc, if_neg hc]
  · by_cases hc : entry_id > m.lastId
    · rw [if_pos hc, if_pos hc]
    · rw [if_neg hc, if_neg hc]

/-- Witness for C2: the amended theorem applied to a concrete duplicate id. -/
theorem C2_duplicate_add_entry_witness :
    (dictGet (entryEn "B") "name").isSome ∧
    (dictGet (DataMap.new.add_entry 1 (entryEn "A")).1.data (1 : Int)).isSome ∧
    ((DataMap.new.add_entry 1 (entryEn "A")).1.add_entry 1 (entryEn "B")).2
      = Except.error Err.duplicateKey :=
  ⟨by decide, by decide, (C2_duplicate_add_entry (by decide) (by decide)).1⟩

/-- C6 counterexample: on an empty store the auto-generated candidate is 1,
yet `insert` and `add_with_id 1` leave different store states — `add_with_id`
sets `lastId` (highest assigned id) to 1 while `insert` leaves it at 0 — so
the two calls are not observably equivalent on the full state. -/
theorem C6_counterexample :
    DataMap.new.idGenNext = 1 ∧
    (DataMap.new.insert (entryEn "A")).1.lastId
      ≠ (DataMap.new.add_entry 1 (entryEn "A")).1.lastId := by
  decide

/-- C6 (amended): given the generator invariant `lastId < idGenNext`,
`insert raw` and `add_with_id idGenNext raw` agree on the result, `entries`,
`reverse_index` and the advanced candidate (`idGenNext + 1`), but differ on
`lastId`: `add_with_id` sets it to the id used while `insert` leaves it
unchanged. -/
theorem C6_insert_add_equivalence {m : DataMap} {e : Entry}
    (hinv : m.lastId < m.idGenNext) :
    (m.insert e).2 = (m.add_entry m.idGenNext e).2 ∧
    (m.insert e).1.data = (m.add_entry m.idGenNext e).1.data ∧
    (m.insert e).1.reverseEntries = (m.add_entry m.idGenNext e).1.reverseEntries ∧
    (m.insert e).1.idGenNext = m.idGenNext + 1 ∧
    (m.add_entry m.idGenNext e).1.idGenNext = m.idGenNext + 1 ∧
    (m.add_entry m.idGenNext e).1.lastId = m.idGenNext ∧
    (m.insert e).1.lastId = m.lastId := by
  simp only [DataMap.insert, DataMap.add_entry]
  rw [if_pos hinv]
  rcases addEntryCore_congr { m with idGenNext := m.idGenNext + 1 }
      { m with idGenNext := m.idGenNext + 1, lastId := m.idGenNext }
      m.idGenNext e rfl rfl with ⟨h2, hd, hr⟩
  rcases addEntryCore_gen { m with idGenNext := m.idGenNext + 1 }
      m.idGenNext e with ⟨hg1, hl1⟩
  rcases addEntryCore_gen { m with idGenNext := m.idGenNext + 1, lastId := m.idGenNext }
      m.idGenNext e with ⟨hg2, hl2⟩
  exact ⟨h2, hd, hr, hg1, hg2, hl2, hl1⟩

/-- Witness for C6: the amended equivalence applied to the empty store. -/
theorem C6_insert_add_equivalence_witness :
    DataMap.new.lastId < DataMap.new.idGenNext ∧
    (DataMap.new.insert (entryEn "A")).2
      = (DataMap.new.add_entry DataMap.new.idGenNext (entryEn "A")).2 :=
  ⟨by decide, (C6_insert_add_equivalence (by decide)).1⟩

/-- C7 counterexample: `add_with_id` on a duplicate id whose raw fields lack a
`name` entry fails with MissingField, not DuplicateKey — the missing-name
check runs before the duplicate-id check, contrary to the claimed order. -/
theorem C7_counterexample :
    ((DataMap.new.add_entry 1 (entryEn "A")).1.add_entry 1 ([] : Entry)).2
      = Except.error Err.missingField ∧
    ((DataMap.new.add_entry 1 (entryEn "A")).1.add_entry 1 ([] : Entry)).2
      ≠ Except.error Err.duplicateKey := by
  decide

/-- C7 (amended): the missing-name check comes first: any call whose raw
fields lack a `name` entry fails with MissingField (even on a duplicate id),
and a call with a `name` entry and a duplicate id fails with DuplicateKey. -/
theorem C7_error_check_order {m : DataMap} {entry_id : Int} {e : Entry} :
    (dictGet e "name" = none →
      (m.add_entry entry_id e).2 = Except.error Err.missingField) ∧
    ((dictGet e "name").isSome → (dictGet m.data entry_id).isSome →
      (m.add_entry entry_id e).2 = Except.error Err.duplicateKey) := by
  constructor
  · intro h
    simp only [DataMap.add_entry]
    rw [addEntryCore_missing h]
  · intro h1 h2
    simp only [DataMap.add_entry]
    have hd : (if entry_id > m.lastId
        then { m with idGenNext := entry_id + 1, lastId := entry_id } else m).data
        = m.data := by split <;> rfl
    rw [addEntryCore_dup h1 (by rw [hd]; exact h2)]

/-- Witness for C7: both branches applied at concrete inputs. -/
theorem C7_error_check_order_witness :
    (dictGet ([] : Entry) "name" = none ∧
      ((DataMap.new.add_entry 1 (entryEn "A")).1.add_entry 1 ([] : Entry)).2
        = Except.error Err.missingField) ∧
    ((dictGet (entryEn "B") "name").isSome ∧
      (dictGet (DataMap.new.add_entry 1 (entryEn "A")).1.data (1 : Int)).isSome ∧
      ((DataMap.new.add_entry 1 (entryEn "A")).1.add_entry 1 (entryEn "B")).2
        = Except.error Err.duplicateKey) :=
  ⟨⟨by decide, C7_error_check_order.1 (by decide)⟩,
    ⟨by decide, by decide, C7_error_check_order.2 (by decide) (by decide)⟩⟩


/-- C3: immediately after a successful `add_with_id` or `insert`, every
(language, name) pair of the new Record resolves through the reverse index:
`id_of` returns the Record's id and `entry_of` returns the Record itself. -/
theorem C3_reverse_index_consistency :
    (∀ (m m₂ : DataMap) (entry_id : Int) (e : Entry) (r : DataRow),
      m.add_entry entry_id e = (m₂, Except.ok r) →
      ∀ p ∈ r.names, m₂.id_of p.1 p.2 = some r.id ∧ m₂.entry_of p.1 p.2 = some r) ∧
    (∀ (m m₂ : DataMap) (e : Entry) (r : DataRow),
      m.insert e = (m₂, Except.ok r) →
      ∀ p ∈ r.names, m₂.id_of p.1 p.2 = some r.id ∧ m₂.entry_of p.1 p.2 = some r) := by
  constructor
  · intro m m₂ entry_id e r h
    simp only [DataMap.add_entry] at h
    exact reverse_index_core h
  · intro m m₂ e r h
    simp only [DataMap.insert] at h
    exact reverse_index_core h

/-- Witness for C3: a concrete insertion looked up through the reverse index. -/
theorem C3_reverse_index_consistency_witness :
    (DataMap.new.add_entry 1 (entryEn "A")
      = ((DataMap.new.add_entry 1 (entryEn "A")).1, Except.ok ⟨1, entryEn "A"⟩)) ∧
    (("en", "A") ∈ (⟨1, entryEn "A"⟩ : DataRow).names) ∧
    ((DataMap.new.add_entry 1 (entryEn "A")).1.id_of "en" "A" = some (1 : Int) ∧
      (DataMap.new.add_entry 1 (entryEn "A")).1.entry_of "en" "A"
        = some ⟨1, entryEn "A"⟩) :=
  ⟨by decide, by decide,
    C3_reverse_index_consistency.1 DataMap.new _ 1 (entryEn "A") ⟨1, entryEn "A"⟩
      (by decide) ("en", "A") (by decide)⟩

/-- C4 counterexample: on a Record with fields [a, b, c, d], calling
`set_after("a", v, "b")` with the already-existing field `a` (located before
the anchor) leaves the field order unchanged — `a` does not end up
immediately after `b`, refuting the claim for pre-existing fields. -/
theorem C4_counterexample :
    ((DataRow.set_value ⟨1, [("a", Value.vStr "1"), ("b", Value.vStr "2"),
        ("c", Value.vStr "3"), ("d", Value.vStr "4")]⟩ "a" (Value.vStr "9")
        "b").data.map Prod.fst = ["a", "b", "c", "d"]) ∧
    ¬ List.IsInfix ["b", "a"]
      ((DataRow.set_value ⟨1, [("a", Value.vStr "1"), ("b", Value.vStr "2"),
        ("c", Value.vStr "3"), ("d", Value.vStr "4")]⟩ "a" (Value.vStr "9")
        "b").data.map Prod.fst) := by
  decide

/-- C4 (amended): with the anchor present, `set_after` positions the field
immediately after the anchor (followers keeping their relative order) only
when the field is new; when the field already exists, the call just updates
its value in place and the field order is completely unchanged. -/
theorem C4_set_after_reorder :
    (∀ (i : Int) (dp ds : Entry) (after key : String) (av value : Value),
      after ≠ "" → ((dp ++ (after, av) :: ds).map Prod.fst).Nodup →
      key ∉ (dp ++ (after, av) :: ds).map Prod.fst →
      (DataRow.set_value ⟨i, dp ++ (after, av) :: ds⟩ key value after).data
        = dp ++ (after, av) :: (key, value) :: ds) ∧
    (∀ (i : Int) (d : Entry) (after key : String) (value : Value),
      after ≠ "" → (d.map Prod.fst).Nodup → after ∈ d.map Prod.fst →
      key ∈ d.map Prod.fst →
      DataRow.set_value ⟨i, d⟩ key value after = ⟨i, dictSet d key value⟩ ∧
      (DataRow.set_value ⟨i, d⟩ key value after).data.map Prod.fst
        = d.map Prod.fst) := by
  constructor
  · intro i dp ds after key av value hne hnd hkey
    exact set_value_new_key i dp ds after key av value hne hnd hkey
  · intro i d after key value hne hnd hmem hkey
    have heq := set_value_existing_key i d after key value hne hnd hmem hkey
    refine ⟨heq, ?_⟩
    rw [heq]
    exact keys_dictSet_of_mem hkey value

/-- Witness for C4: the amended theorem on a concrete new field and a
concrete existing field. -/
theorem C4_set_after_reorder_witness :
    (("b" : String) ≠ "" ∧
      (DataRow.set_value ⟨1, [("a", Value.vStr "1")] ++ ("b", Value.vStr "2")
          :: [("c", Value.vStr "3")]⟩ "e" (Value.vStr "5") "b").data
        = [("a", Value.vStr "1")] ++ ("b", Value.vStr "2")
            :: ("e", Value.vStr "5") :: [("c", Value.vStr "3")]) ∧
    (DataRow.set_value ⟨1, [("a", Value.vStr "1"), ("b", Value.vStr "2")]⟩
        "a" (Value.vStr "9") "b"
      = ⟨1, dictSet [("a", Value.vStr "1"), ("b", Value.vStr "2")]
          "a" (Value.vStr "9")⟩) :=
  ⟨⟨by decide,
      C4_set_after_reorder.1 1 [("a", Value.vStr "1")] [("c", Value.vStr "3")]
        "b" "e" (Value.vStr "2") (Value.vStr "5")
        (by decide) (by decide) (by decide)⟩,
    (C4_set_after_reorder.2 1 [("a", Value.vStr "1"), ("b", Value.vStr "2")]
        "b" "a" (Value.vStr "9")
        (by decide) (by decide) (by decide) (by decide)).1⟩

/-- C5: on a Record with fields [a, b, c, d], `set_after("e", v, "b")` with a
fresh field `e` yields the order [a, b, e, c, d]; and with an absent anchor
`set_after` is exactly a plain set: a new field is appended at the end, an
existing field is overwritten in place, and no other field moves. -/
theorem C5_set_after_behaviour :
    (∀ (i : Int) (va vb vc vd v : Value),
      (DataRow.set_value ⟨i, [("a", va), ("b", vb), ("c", vc), ("d", vd)]⟩
          "e" v "b").data
        = [("a", va), ("b", vb), ("e", v), ("c", vc), ("d", vd)]) ∧
    (∀ (r : DataRow) (key : String) (value : Value) (after : String),
      after ∉ r.data.map Prod.fst →
      r.set_value key value after = r.set_value key value "") ∧
    (∀ (r : DataRow) (key : String) (value : Value),
      key ∉ r.data.map Prod.fst →
      (r.set_value key value "").data = r.data ++ [(key, value)]) ∧
    (∀ (r : DataRow) (key : String) (value : Value),
      key ∈ r.data.map Prod.fst →
      (r.set_value key value "").data.map Prod.fst = r.data.map Prod.fst) := by
  refine ⟨?_, ?_, ?_, ?_⟩
  · intro i va vb vc vd v
    exact set_value_new_key i [("a", va)] [("c", vc), ("d", vd)] "b" "e" vb v
      (by decide) (by simp) (by simp)
  · intro r key value after h
    rw [set_value_absent_anchor r key value h, set_value_plain]
  · intro r key value h
    rw [set_value_plain]
    exact dictSet_of_not_mem h value
  · intro r key value h
    rw [set_value_plain]
    exact keys_dictSet_of_mem h value

/-- Witness for C5: the absent-anchor, fresh-append and overwrite clauses at
concrete inputs. -/
theorem C5_set_after_behaviour_witness :
    (("z" : String) ∉ ([("a", Value.vStr "1")] : Entry).map Prod.fst ∧
      DataRow.set_value ⟨1, [("a", Value.vStr "1")]⟩ "e" (Value.vStr "5") "z"
        = DataRow.set_value ⟨1, [("a", Value.vStr "1")]⟩ "e" (Value.vStr "5") "") ∧
    (("e" : String) ∉ ([("a", Value.vStr "1")] : Entry).map Prod.fst ∧
      (DataRow.set_value ⟨1, [("a", Value.vStr "1")]⟩ "e" (Value.vStr "5") "").data
        = [("a", Value.vStr "1")] ++ [("e", Value.vStr "5")]) ∧
    (("a" : String) ∈ ([("a", Value.vStr "1")] : Entry).map Prod.fst ∧
      (DataRow.set_value ⟨1, [("a", Value.vStr "1")]⟩ "a" (Value.vStr "9") "").data.map
          Prod.fst
        = ([("a", Value.vStr "1")] : Entry).map Prod.fst) :=
  ⟨⟨by decide, C5_set_after_behaviour.2.1 ⟨1, [("a", Value.vStr "1")]⟩ "e"
      (Value.vStr "5") "z" (by decide)⟩,
    ⟨by decide, C5_set_after_behaviour.2.2.1 ⟨1, [("a", Value.vStr "1")]⟩ "e"
      (Value.vStr "5") (by decide)⟩,
    ⟨by decide, C5_set_after_behaviour.2.2.2 ⟨1, [("a", Value.vStr "1")]⟩ "a"
      (Value.vStr "9") (by decide)⟩⟩


/-- C8: iterating the store yields identifiers in exactly the order the
corresponding records were successfully added, for every sequence of
`insert`/`add_with_id` operations, regardless of the ids' numeric values. -/
theorem C8_insertion_order (m : DataMap) (ops : List Op) :
    (runOps m ops).iterKeys = m.iterKeys ++ newIds m ops := by
  induction ops generalizing m with
  | nil => simp [runOps, newIds]
  | cons op ops ih =>
    simp only [runOps, newIds]
    have hk := applyOp_iterKeys m op
    rcases h : applyOp m op with ⟨m', res⟩
    rw [ih]
    rcases res with er | r
    · rw [h] at hk
      dsimp only at hk
      rw [hk]
      simp
    · rw [h] at hk
      dsimp only at hk
      rw [hk]
      simp

/-- C9: iterating `names(lang)` yields `Record.name(lang)` for each record in
store order when every record has the language, and otherwise yields the
names of the records preceding the first record lacking the language and then
fails with that record's error (KeyNotFound), not skipping it. -/
theorem C9_names_iteration :
    (∀ (m : DataMap) (lang : String),
      (∀ r ∈ m.valuesList, (r.name lang).isOk) →
      nameSetIter m lang
        = (m.valuesList.filterMap (fun r => (r.name lang).toOption), none)) ∧
    (∀ (m : DataMap) (lang : String) (pre : List DataRow) (r : DataRow)
        (post : List DataRow) (e : Err),
      m.valuesList = pre ++ r :: post →
      (∀ r' ∈ pre, (r'.name lang).isOk) →
      r.name lang = Except.error e →
      nameSetIter m lang
        = (pre.filterMap (fun r' => (r'.name lang).toOption), some e)) := by
  constructor
  · intro m lang h
    unfold nameSetIter
    exact namesSeq_all_ok h
  · intro m lang pre r post e hsplit hpre hr
    unfold nameSetIter
    rw [hsplit]
    exact namesSeq_err hpre hr

/-- Witness for C9: a store whose second record lacks English; iteration
yields the first record's name, then fails with KeyNotFound. -/
theorem C9_names_iteration_witness :
    ((((DataMap.new.insert (entryEn "A")).1.insert
        [("name", Value.vNameMap [("fr", "B")])]).1.insert (entryEn "C")).1.valuesList
      = [⟨1, entryEn "A"⟩] ++ (⟨2, [("name", Value.vNameMap [("fr", "B")])]⟩ : DataRow)
          :: [⟨3, entryEn "C"⟩]) ∧
    (∀ r' ∈ [(⟨1, entryEn "A"⟩ : DataRow)], (r'.name "en").isOk) ∧
    ((⟨2, [("name", Value.vNameMap [("fr", "B")])]⟩ : DataRow).name "en"
      = Except.error Err.keyNotFound) ∧
    nameSetIter (((DataMap.new.insert (entryEn "A")).1.insert
        [("name", Value.vNameMap [("fr", "B")])]).1.insert (entryEn "C")).1 "en"
      = ([(⟨1, entryEn "A"⟩ : DataRow)].filterMap
          (fun r' => (r'.name "en").toOption), some Err.keyNotFound) :=
  ⟨by decide, by decide, by decide,
    C9_names_iteration.2 _ "en" [⟨1, entryEn "A"⟩]
      ⟨2, [("name", Value.vNameMap [("fr", "B")])]⟩ [⟨3, entryEn "C"⟩]
      Err.keyNotFound (by decide) (by decide) (by decide)⟩

/-- C10: inserting raw fields whose (language, name) pair is already claimed
by another identifier succeeds without error and silently overwrites the
reverse-index entry: afterwards `id_of` yields the new id and `entry_of` the
new record, while the old record stays in `entries`. -/
theorem C10_reverse_overwrite {m : DataMap} {entry_id : Int} {e : Entry}
    {pairs : List (String × String)}
    (hname : dictGet e "name" = some (Value.vNameMap pairs))
    (hfresh : dictGet m.data entry_id = none) :
    (m.add_entry entry_id e).2 = Except.ok ⟨entry_id, e⟩ ∧
    (∀ p ∈ pairs, (m.add_entry entry_id e).1.id_of p.1 p.2 = some entry_id) ∧
    (∀ oldId ∈ m.iterKeys, oldId ∈ (m.add_entry entry_id e).1.iterKeys) ∧
    (∀ p ∈ pairs, (m.add_entry entry_id e).1.entry_of p.1 p.2
      = some (⟨entry_id, e⟩ : DataRow)) := by
  obtain ⟨m₂, hrun, hdata, hrev⟩ := add_entry_success hname hfresh
  rw [hrun]
  refine ⟨rfl, ?_, ?_, ?_⟩
  · intro p hp
    show m₂.id_of p.1 p.2 = some entry_id
    unfold DataMap.id_of
    rw [hrev, dictGet_foldl_revSet, if_pos hp]
  · intro oldId hold
    show oldId ∈ m₂.iterKeys
    unfold DataMap.iterKeys
    rw [hdata, List.map_append]
    exact List.mem_append.mpr (Or.inl hold)
  · intro p hp
    show m₂.entry_of p.1 p.2 = some (⟨entry_id, e⟩ : DataRow)
    unfold DataMap.entry_of DataMap.id_of
    rw [hrev, dictGet_foldl_revSet, if_pos hp]
    show dictGet m₂.data entry_id = some (⟨entry_id, e⟩ : DataRow)
    rw [hdata, dictGet_append_none hfresh, dictGet_cons, if_pos rfl]

/-- Witness for C10: record 1 owns ("en", "A"); adding record 7 with the same
name silently repoints the reverse index to 7 while record 1 stays stored. -/
theorem C10_reverse_overwrite_witness :
    (dictGet (entryEn "A") "name"
      = some (Value.vNameMap [("en", "A")]) ∧
    dictGet (DataMap.new.insert (entryEn "A")).1.data (7 : Int) = none ∧
    (DataMap.new.insert (entryEn "A")).1.id_of "en" "A" = some (1 : Int)) ∧
    ((DataMap.new.insert (entryEn "A")).1.add_entry 7 (entryEn "A")).1.id_of "en" "A"
      = some (7 : Int) :=
  ⟨⟨by decide, by decide, by decide⟩,
    (@C10_reverse_overwrite (DataMap.new.insert (entryEn "A")).1 7 (entryEn "A")
      [("en", "A")] (by decide) (by decide)).2.1 ("en", "A") (by decide)⟩

end MHW
